import Mathlib

/-!
Verification development for the pass-secret-service daemon.

The definitions below are shallow embeddings of the corresponding Rust
functions; each definition's doc comment names the source location it
was translated from.  Rust machine integers are modelled as `Nat`
(explicit `% 2^w` where overflow matters), byte strings as `List Nat`,
hash maps as association lists, fallible code as `Except`/`Option`, and
a panic as a dedicated result constructor.
-/

set_option maxRecDepth 16000

namespace PassSecretService

/-! ## Slugification (src/secret_store.rs, `slugify`)

The Rust function builds a `Vec<u8>` of ASCII bytes and converts it to a
`String` at the end, so the loop is modelled at byte level. -/

/-- Rust `char::is_ascii_alphanumeric`: the character is in
`A-Z`, `a-z` or `0-9` (code points 65-90, 97-122, 48-57). -/
def isAsciiAlphanumeric (c : Char) : Bool :=
  (65 ≤ c.toNat && c.toNat ≤ 90) ||
  (97 ≤ c.toNat && c.toNat ≤ 122) ||
  (48 ≤ c.toNat && c.toNat ≤ 57)

/-- Rust `char::to_ascii_lowercase`, as the byte pushed by `slugify`
(`ch.to_ascii_lowercase() as u8`): adds 32 to upper-case ASCII letters. -/
def toAsciiLowercaseByte (c : Char) : Nat :=
  if 65 ≤ c.toNat ∧ c.toNat ≤ 90 then c.toNat + 32 else c.toNat

/-- The loop of `slugify` from src/secret_store.rs lines 51-72: the
boolean argument is the `after_underscore` flag (initially `true`);
ASCII alphanumerics are pushed lowercased and clear the flag, any other
character pushes a single `_` (byte 95) when the flag is clear, and sets
it. -/
def slugifyBytes : Bool → List Char → List Nat
  | _, [] => []
  | afterUnderscore, c :: rest =>
    if isAsciiAlphanumeric c then toAsciiLowercaseByte c :: slugifyBytes false rest
    else if afterUnderscore then slugifyBytes afterUnderscore rest
    else 95 :: slugifyBytes true rest

/-- `slugify` from src/secret_store.rs lines 51-72: convert a string to a
valid ASCII slug.  The final `String::from_utf8_unchecked` is modelled by
decoding each (ASCII) byte back to a character. -/
def slugify (s : String) : String := ⟨(slugifyBytes true s.data).map Char.ofNat⟩

/-- Spec-side restatement of the slug algorithm as worded in the spec:
scan characters; lowercase ASCII alphanumerics are copied; any other
character produces a single `_` unless the previous output character was
already `_` or the output is still empty. -/
def slugifySpecBytes (acc : List Nat) : List Char → List Nat
  | [] => acc
  | c :: rest =>
    if isAsciiAlphanumeric c then slugifySpecBytes (acc ++ [toAsciiLowercaseByte c]) rest
    else if acc = [] ∨ acc.getLast? = some 95 then slugifySpecBytes acc rest
    else slugifySpecBytes (acc ++ [95]) rest

theorem toAsciiLowercaseByte_ne_underscore {c : Char}
    (h : isAsciiAlphanumeric c = true) : toAsciiLowercaseByte c ≠ 95 := by
  simp only [isAsciiAlphanumeric, Bool.or_eq_true, Bool.and_eq_true,
    decide_eq_true_eq] at h
  unfold toAsciiLowercaseByte
  split <;> omega

theorem slugifySpecBytes_eq (cs : List Char) :
    ∀ acc, slugifySpecBytes acc cs =
      acc ++ slugifyBytes (decide (acc = [] ∨ acc.getLast? = some 95)) cs := by
  induction cs with
  | nil => intro acc; simp [slugifySpecBytes, slugifyBytes]
  | cons c rest ih =>
    intro acc
    by_cases hc : isAsciiAlphanumeric c
    · rw [slugifySpecBytes, if_pos hc, ih]
      have hlast : (acc ++ [toAsciiLowercaseByte c]).getLast? =
          some (toAsciiLowercaseByte c) := by
        simp [List.getLast?_append]
      have hflag : decide ((acc ++ [toAsciiLowercaseByte c]) = [] ∨
          (acc ++ [toAsciiLowercaseByte c]).getLast? = some 95) = false := by
        simp only [decide_eq_false_iff_not, not_or]
        refine ⟨by simp, ?_⟩
        rw [hlast]
        simp [toAsciiLowercaseByte_ne_underscore hc]
      rw [hflag, slugifyBytes, if_pos hc]
      simp
    · by_cases hflag : acc = [] ∨ acc.getLast? = some 95
      · rw [slugifySpecBytes, if_neg hc, if_pos hflag, ih,
          slugifyBytes, if_neg hc]
        simp [hflag]
      · rw [slugifySpecBytes, if_neg hc, if_neg hflag, ih,
          slugifyBytes, if_neg hc]
        have h1 : decide (acc = [] ∨ acc.getLast? = some 95) = false := by
          simpa using hflag
        have h2 : decide ((acc ++ [95]) = [] ∨
            (acc ++ [95]).getLast? = some 95) = true := by
          simp [List.getLast?_append]
        rw [h1, h2]
        simp

/-- C9 counterexample: on the spec's own example input the implementation
keeps a trailing separator, contradicting the claimed output
`"hello_world"`. -/
theorem slugify_example_counterexample :
    slugify "  Hello, World!  " = "hello_world_" ∧
    slugify "  Hello, World!  " ≠ "hello_world" := by
  constructor
  · rfl
  · decide

/-- C9 (amended): `slugify` copies lowercased ASCII alphanumerics and maps
every other character to a single `_` unless the previous output character
was already `_` or the output is still empty (suppressing leading and
consecutive separators, but not a trailing one); in particular
`slugify "  Hello, World!  " = "hello_world_"` (with a trailing `_`) and
`slugify "___" = ""`. -/
theorem slugify_amended :
    (∀ s : String, slugifyBytes true s.data = slugifySpecBytes [] s.data) ∧
    slugify "  Hello, World!  " = "hello_world_" ∧
    slugify "___" = "" := by
  refine ⟨fun s => ?_, rfl, rfl⟩
  rw [slugifySpecBytes_eq]
  simp

/-! ## Per-collection attribute index (src/secret_store.rs)

The redb tables `attributes : (key, value) --> secrets` (a multimap) and
`attributes-reverse : secret --> map(key, value)` are modelled as lists:
the multimap as a list of edges `((key, value), secret)` with set
semantics, the reverse table as an association list.  Rust `HashMap`s
that cross the interface are association lists with pairwise-distinct
keys. -/

/-- Attribute map of one secret (`HashMap<String, String>`). -/
abbrev AttrPairs := List (String × String)

/-- Point lookup in an association list (redb `Table::get` /
`HashMap::get`). -/
def assocGet {α : Type} (k : String) : List (String × α) → Option α
  | [] => none
  | p :: rest => if k = p.1 then some p.2 else assocGet k rest

/-- redb `Table::insert`: replace any binding of `k` by `v`. -/
def tableSet {α : Type} (k : String) (v : α) (t : List (String × α)) :
    List (String × α) :=
  (k, v) :: t.filter fun p => p.1 ≠ k

/-- redb `Table::remove`: drop the binding of `k`. -/
def tableRemoveKey {α : Type} (k : String) (t : List (String × α)) :
    List (String × α) :=
  t.filter fun p => p.1 ≠ k

/-- redb `MultimapTable::get` on the attributes table: all secrets with
edge `(kv, s)`. -/
def multimapGet (kv : String × String)
    (edges : List ((String × String) × String)) : List String :=
  edges.filterMap fun e => if e.1 = kv then some e.2 else none

/-- redb `MultimapTable::insert` (set semantics). -/
def multimapInsert (kv : String × String) (s : String)
    (edges : List ((String × String) × String)) :
    List ((String × String) × String) :=
  if (kv, s) ∈ edges then edges else (kv, s) :: edges

/-- redb `MultimapTable::remove` of one `(key, value)` pair. -/
def multimapRemove (kv : String × String) (s : String)
    (edges : List ((String × String) × String)) :
    List ((String × String) × String) :=
  edges.filter fun e => e ≠ (kv, s)

/-- State of one collection's attribute database
(`attributes.redb`: tables `attributes` and `attributes-reverse`). -/
structure AttrDb where
  attributes : List ((String × String) × String)
  attributes_reverse : List (String × AttrPairs)

/-- Index transaction of `create_secret` (src/secret_store.rs lines
588-649): insert one forward edge per attribute pair and overwrite the
reverse entry.  (The labels table also written there does not interact
with these two tables and is omitted.) -/
def create_secret (secret_id : String) (attrs : AttrPairs) (db : AttrDb) :
    AttrDb where
  attributes := attrs.foldl (fun es kv => multimapInsert kv secret_id es) db.attributes
  attributes_reverse := tableSet secret_id attrs db.attributes_reverse

/-- Index transaction of `set_secret_attrs` (src/secret_store.rs lines
721-769): replace the reverse entry; if there was an old one, remove its
forward edges; insert the new forward edges. -/
def set_secret_attrs (secret_id : String) (attrs : AttrPairs) (db : AttrDb) :
    AttrDb where
  attributes :=
    let afterRemove :=
      match assocGet secret_id db.attributes_reverse with
      | some oldAttrs =>
        oldAttrs.foldl (fun es kv => multimapRemove kv secret_id es) db.attributes
      | none => db.attributes
    attrs.foldl (fun es kv => multimapInsert kv secret_id es) afterRemove
  attributes_reverse := tableSet secret_id attrs db.attributes_reverse

/-- Error surface of the store operations that matter here: the
`io::ErrorKind::NotFound` raised by `into_not_found()`. -/
inductive StoreErr where
  | notFound
deriving DecidableEq

/-- Index transaction of `delete_secret` (src/secret_store.rs lines
530-576): remove the reverse entry — `into_not_found()?` aborts the
transaction with a not-found error when it is absent — then remove each
forward edge it listed. -/
def delete_secret_tx (secret_id : String) (db : AttrDb) :
    Except StoreErr AttrDb :=
  match assocGet secret_id db.attributes_reverse with
  | none => .error .notFound
  | some oldAttrs => .ok
    { attributes :=
        oldAttrs.foldl (fun es kv => multimapRemove kv secret_id es) db.attributes
      attributes_reverse := tableRemoveKey secret_id db.attributes_reverse }

/-- `search_collection` (src/secret_store.rs lines 76-118): empty query
returns empty; otherwise fetch the candidates for the first pair and keep
each candidate whose reverse entry exists and agrees with every remaining
pair.  (A missing table makes the Rust function return the empty vector,
which coincides with searching the empty state.) -/
def search_collection (attrs : AttrPairs) (db : AttrDb) : List String :=
  match attrs with
  | [] => []
  | kv₁ :: rest =>
    (multimapGet kv₁ db.attributes).filterMap fun s =>
      match assocGet s db.attributes_reverse with
      | some secretAttrs =>
        if ∀ p ∈ rest, assocGet p.1 secretAttrs = some p.2 then some s else none
      | none => none

/-- The mutual-inverse invariant between the attributes multimap and the
reverse table: edge `(k, v) → s` exists iff the reverse entry of `s`
maps `k` to `v`. -/
def Inv (db : AttrDb) : Prop :=
  ∀ k v s, ((k, v), s) ∈ db.attributes ↔
    ∃ A, assocGet s db.attributes_reverse = some A ∧ assocGet k A = some v

/-- Attribute-database states reachable from the empty database.
`create` requires the generated nanoid to be fresh (per the data model:
ids are unique within the collection) and, like `setAttrs`, receives an
attribute `HashMap`, so its keys are pairwise distinct. -/
inductive Reachable : AttrDb → Prop where
  | empty : Reachable ⟨[], []⟩
  | create {db : AttrDb} (id : String) (attrs : AttrPairs) :
      Reachable db → assocGet id db.attributes_reverse = none →
      (attrs.map Prod.fst).Nodup → Reachable (create_secret id attrs db)
  | setAttrs {db : AttrDb} (id : String) (attrs : AttrPairs) :
      Reachable db → (attrs.map Prod.fst).Nodup →
      Reachable (set_secret_attrs id attrs db)
  | delete {db db' : AttrDb} (id : String) :
      Reachable db → delete_secret_tx id db = .ok db' → Reachable db'

theorem mem_multimapInsert {kv : String × String} {s : String}
    {e : (String × String) × String} {es} :
    e ∈ multimapInsert kv s es ↔ e = (kv, s) ∨ e ∈ es := by
  unfold multimapInsert
  split
  · case isTrue h =>
    constructor
    · exact Or.inr
    · rintro (rfl | he)
      · exact h
      · exact he
  · simp [List.mem_cons]

theorem mem_foldl_multimapInsert (id : String) (e : (String × String) × String)
    (attrs : AttrPairs) :
    ∀ es, e ∈ attrs.foldl (fun es2 kv => multimapInsert kv id es2) es ↔
      (∃ kv ∈ attrs, e = (kv, id)) ∨ e ∈ es := by
  induction attrs with
  | nil => intro es; simp
  | cons kv rest ih =>
    intro es
    rw [List.foldl_cons, ih]
    simp only [mem_multimapInsert, List.mem_cons]
    constructor
    · rintro (⟨kv2, hkv2, rfl⟩ | rfl | he)
      · exact Or.inl ⟨kv2, Or.inr hkv2, rfl⟩
      · exact Or.inl ⟨kv, Or.inl rfl, rfl⟩
      · exact Or.inr he
    · rintro (⟨kv2, rfl | hkv2, rfl⟩ | he)
      · exact Or.inr (Or.inl rfl)
      · exact Or.inl ⟨kv2, hkv2, rfl⟩
      · exact Or.inr (Or.inr he)

theorem mem_multimapRemove {kv : String × String} {s : String}
    {e : (String × String) × String} {es} :
    e ∈ multimapRemove kv s es ↔ e ∈ es ∧ e ≠ (kv, s) := by
  unfold multimapRemove
  simp [List.mem_filter]

theorem mem_foldl_multimapRemove (id : String) (e : (String × String) × String)
    (old : AttrPairs) :
    ∀ es, e ∈ old.foldl (fun es2 kv => multimapRemove kv id es2) es ↔
      e ∈ es ∧ ¬(e.2 = id ∧ e.1 ∈ old) := by
  induction old with
  | nil => intro es; simp
  | cons kv rest ih =>
    intro es
    rw [List.foldl_cons, ih, mem_multimapRemove]
    obtain ⟨p, t⟩ := e
    simp only [List.mem_cons, Prod.mk.injEq, ne_eq]
    constructor
    · rintro ⟨⟨he, hne⟩, hrest⟩
      refine ⟨he, ?_⟩
      rintro ⟨h2, rfl | h1⟩
      · exact hne ⟨rfl, h2⟩
      · exact hrest ⟨h2, h1⟩
    · rintro ⟨he, hn⟩
      refine ⟨⟨he, ?_⟩, ?_⟩
      · rintro ⟨h1, h2⟩
        exact hn ⟨h2, Or.inl h1⟩
      · rintro ⟨h2, h1⟩
        exact hn ⟨h2, Or.inr h1⟩

theorem mem_multimapGet {kv : String × String} {s : String}
    {edges : List ((String × String) × String)} :
    s ∈ multimapGet kv edges ↔ (kv, s) ∈ edges := by
  unfold multimapGet
  rw [List.mem_filterMap]
  constructor
  · rintro ⟨e, he, hfe⟩
    split at hfe
    · case isTrue h1 =>
      rw [Option.some.injEq] at hfe
      have : e = (kv, s) := by
        rw [Prod.ext_iff]
        exact ⟨h1, hfe⟩
      rw [this] at he
      exact he
    · exact absurd hfe (by simp)
  · intro h
    exact ⟨(kv, s), h, by simp⟩

theorem assocGet_eq_some_mem {α : Type} {k : String} {v : α} :
    ∀ {t : List (String × α)}, assocGet k t = some v → (k, v) ∈ t := by
  intro t
  induction t with
  | nil => simp [assocGet]
  | cons p rest ih =>
    obtain ⟨pk, pv⟩ := p
    rw [assocGet]
    split
    · case isTrue h =>
      intro hv
      rw [Option.some.injEq] at hv
      simp only at h hv
      rw [h, hv]
      exact List.mem_cons_self _ _
    · intro hv
      exact List.mem_cons_of_mem _ (ih hv)

theorem mem_iff_assocGet {α : Type} {t : List (String × α)}
    (hnd : (t.map Prod.fst).Nodup) {k : String} {v : α} :
    (k, v) ∈ t ↔ assocGet k t = some v := by
  induction t with
  | nil => simp [assocGet]
  | cons p rest ih =>
    obtain ⟨pk, pv⟩ := p
    simp only [List.map_cons, List.nodup_cons, List.mem_map] at hnd
    obtain ⟨hp, hrest⟩ := hnd
    rw [assocGet]
    split
    · case isTrue h =>
      simp only at h
      subst h
      simp only [List.mem_cons, Prod.mk.injEq, Option.some.injEq]
      constructor
      · rintro (⟨_, h1⟩ | h1)
        · exact h1.symm
        · exact absurd ⟨(k, v), h1, rfl⟩ hp
      · intro h1
        exact Or.inl ⟨trivial, h1.symm⟩
    · case isFalse h =>
      simp only at h
      rw [← ih hrest]
      simp only [List.mem_cons, Prod.mk.injEq]
      constructor
      · rintro (⟨h1, _⟩ | h1)
        · exact absurd h1 h
        · exact h1
      · exact Or.inr

theorem assocGet_tableRemoveKey_self {α : Type} (k : String)
    (t : List (String × α)) : assocGet k (tableRemoveKey k t) = none := by
  induction t with
  | nil => rfl
  | cons p rest ih =>
    rw [tableRemoveKey, List.filter_cons]
    by_cases hp : p.1 = k
    · rw [if_neg (by simp [hp])]
      exact ih
    · rw [if_pos (by simp [hp]), assocGet, if_neg (fun h2 => hp h2.symm)]
      exact ih

theorem assocGet_tableRemoveKey_ne {α : Type} {k k2 : String} (h : k2 ≠ k)
    (t : List (String × α)) :
    assocGet k2 (tableRemoveKey k t) = assocGet k2 t := by
  induction t with
  | nil => rfl
  | cons p rest ih =>
    rw [tableRemoveKey, List.filter_cons]
    by_cases hp : p.1 = k
    · rw [if_neg (by simp [hp]), assocGet, if_neg (fun h2 => h (h2.trans hp))]
      exact ih
    · rw [if_pos (by simp [hp]), assocGet, assocGet]
      split
      · rfl
      · exact ih

theorem assocGet_tableSet_self {α : Type} (k : String) (v : α)
    (t : List (String × α)) : assocGet k (tableSet k v t) = some v := by
  simp [tableSet, assocGet]

theorem assocGet_tableSet_ne {α : Type} {k k2 : String} (h : k2 ≠ k) (v : α)
    (t : List (String × α)) :
    assocGet k2 (tableSet k v t) = assocGet k2 t := by
  have : tableSet k v t = (k, v) :: tableRemoveKey k t := rfl
  rw [this, assocGet]
  split
  · case isTrue h1 => exact absurd h1 h
  · exact assocGet_tableRemoveKey_ne h t

theorem inv_create {db : AttrDb} {id : String} {attrs : AttrPairs}
    (hinv : Inv db) (hfresh : assocGet id db.attributes_reverse = none)
    (hnd : (attrs.map Prod.fst).Nodup) : Inv (create_secret id attrs db) := by
  intro k v s
  simp only [create_secret]
  rw [mem_foldl_multimapInsert]
  by_cases hs : s = id
  · subst hs
    rw [assocGet_tableSet_self]
    constructor
    · rintro (⟨kv, hkv, heq⟩ | hmem)
      · simp only [Prod.mk.injEq] at heq
        refine ⟨attrs, rfl, ?_⟩
        rw [← mem_iff_assocGet hnd]
        rw [← heq.1] at hkv
        exact hkv
      · rw [hinv k v s] at hmem
        obtain ⟨A, hA, _⟩ := hmem
        rw [hfresh] at hA
        exact absurd hA (by simp)
    · rintro ⟨A, hA, hkA⟩
      rw [Option.some.injEq] at hA
      subst hA
      left
      refine ⟨(k, v), ?_, rfl⟩
      rw [mem_iff_assocGet hnd]
      exact hkA
  · rw [assocGet_tableSet_ne hs]
    constructor
    · rintro (⟨kv, _, heq⟩ | hmem)
      · simp only [Prod.mk.injEq] at heq
        exact absurd heq.2 hs
      · exact (hinv k v s).mp hmem
    · intro h
      exact Or.inr ((hinv k v s).mpr h)

theorem inv_setAttrs {db : AttrDb} {id : String} {attrs : AttrPairs}
    (hinv : Inv db) (hnd : (attrs.map Prod.fst).Nodup) :
    Inv (set_secret_attrs id attrs db) := by
  intro k v s
  simp only [set_secret_attrs]
  rw [mem_foldl_multimapInsert]
  by_cases hs : s = id
  · subst hs
    rw [assocGet_tableSet_self]
    have hmain : (((k, v), s) ∈
        (match assocGet s db.attributes_reverse with
          | some oldAttrs =>
            oldAttrs.foldl (fun es kv => multimapRemove kv s es) db.attributes
          | none => db.attributes)) ↔ False := by
      cases hOld : assocGet s db.attributes_reverse with
      | none =>
        simp only [iff_false]
        intro hmem
        rw [hinv k v s] at hmem
        obtain ⟨A, hA, _⟩ := hmem
        rw [hOld] at hA
        exact absurd hA (by simp)
      | some oldA =>
        simp only [iff_false]
        rw [mem_foldl_multimapRemove]
        rintro ⟨hmem, hnot⟩
        rw [hinv k v s] at hmem
        obtain ⟨A, hA, hkA⟩ := hmem
        rw [hOld, Option.some.injEq] at hA
        subst hA
        exact hnot ⟨rfl, assocGet_eq_some_mem hkA⟩
    rw [hmain]
    constructor
    · rintro (⟨kv, hkv, heq⟩ | hf)
      · simp only [Prod.mk.injEq] at heq
        refine ⟨attrs, rfl, ?_⟩
        rw [← mem_iff_assocGet hnd]
        rw [← heq.1] at hkv
        exact hkv
      · exact absurd hf not_false
    · rintro ⟨A, hA, hkA⟩
      rw [Option.some.injEq] at hA
      subst hA
      left
      refine ⟨(k, v), ?_, rfl⟩
      rw [mem_iff_assocGet hnd]
      exact hkA
  · rw [assocGet_tableSet_ne hs]
    have hmain : (((k, v), s) ∈
        (match assocGet id db.attributes_reverse with
          | some oldAttrs =>
            oldAttrs.foldl (fun es kv => multimapRemove kv id es) db.attributes
          | none => db.attributes)) ↔ ((k, v), s) ∈ db.attributes := by
      cases hOld : assocGet id db.attributes_reverse with
      | none => simp
      | some oldA =>
        simp only
        rw [mem_foldl_multimapRemove]
        constructor
        · exact fun h => h.1
        · intro h
          refine ⟨h, ?_⟩
          rintro ⟨h2, _⟩
          exact hs h2
    rw [hmain]
    constructor
    · rintro (⟨kv, _, heq⟩ | hmem)
      · simp only [Prod.mk.injEq] at heq
        exact absurd heq.2 hs
      · exact (hinv k v s).mp hmem
    · intro h
      exact Or.inr ((hinv k v s).mpr h)

theorem inv_delete {db db' : AttrDb} {id : String}
    (hinv : Inv db) (h : delete_secret_tx id db = .ok db') : Inv db' := by
  unfold delete_secret_tx at h
  cases hOld : assocGet id db.attributes_reverse with
  | none =>
    rw [hOld] at h
    exact absurd h (by simp)
  | some oldA =>
    rw [hOld] at h
    simp only [Except.ok.injEq] at h
    subst h
    intro k v s
    dsimp only
    rw [mem_foldl_multimapRemove]
    by_cases hs : s = id
    · subst hs
      rw [assocGet_tableRemoveKey_self]
      constructor
      · rintro ⟨hmem, hnot⟩
        rw [hinv k v s] at hmem
        obtain ⟨A, hA, hkA⟩ := hmem
        rw [hOld, Option.some.injEq] at hA
        subst hA
        exact absurd ⟨rfl, assocGet_eq_some_mem hkA⟩ hnot
      · rintro ⟨A, hA, _⟩
        exact absurd hA (by simp)
    · rw [assocGet_tableRemoveKey_ne hs]
      constructor
      · rintro ⟨hmem, _⟩
        exact (hinv k v s).mp hmem
      · intro hh
        refine ⟨(hinv k v s).mpr hh, ?_⟩
        rintro ⟨h2, _⟩
        exact hs h2

theorem reachable_inv {db : AttrDb} (h : Reachable db) : Inv db := by
  induction h with
  | empty =>
    intro k v s
    simp [assocGet]
  | create id attrs _ hfresh hnd ih => exact inv_create ih hfresh hnd
  | setAttrs id attrs _ hnd ih => exact inv_setAttrs ih hnd
  | delete id _ hok ih => exact inv_delete ih hok

/-- C1: for every per-collection index state satisfying the
forward/reverse invariant in which secret `s` has attribute map `A`, and
for every query map `Q` (in the iteration order the Rust `HashMap`
yields), `search_collection` returns a list containing `s` iff `Q` is
non-empty and every pair of `Q` agrees with `A` (subset containment); an
empty `Q` yields the empty list. -/
theorem search_collection_spec (db : AttrDb) (hinv : Inv db) (s : String)
    (A : AttrPairs) (hA : assocGet s db.attributes_reverse = some A)
    (Q : AttrPairs) :
    s ∈ search_collection Q db ↔
      (Q ≠ [] ∧ ∀ p ∈ Q, assocGet p.1 A = some p.2) := by
  cases Q with
  | nil => simp [search_collection]
  | cons kv₁ rest =>
    rw [search_collection, List.mem_filterMap]
    constructor
    · rintro ⟨a, ha, hfa⟩
      cases hB : assocGet a db.attributes_reverse with
      | none =>
        rw [hB] at hfa
        exact absurd hfa (by simp)
      | some B =>
        rw [hB] at hfa
        simp only at hfa
        split at hfa
        · case isTrue hall =>
          rw [Option.some.injEq] at hfa
          subst hfa
          rw [hA, Option.some.injEq] at hB
          subst hB
          refine ⟨by simp, ?_⟩
          intro p hp
          rcases List.mem_cons.mp hp with rfl | hp2
          · have hedge := mem_multimapGet.mp ha
            obtain ⟨A2, hA2, hk⟩ := (hinv p.1 p.2 a).mp hedge
            rw [hA, Option.some.injEq] at hA2
            subst hA2
            exact hk
          · exact hall p hp2
        · exact absurd hfa (by simp)
    · rintro ⟨-, hall⟩
      refine ⟨s, ?_, ?_⟩
      · rw [mem_multimapGet]
        exact (hinv kv₁.1 kv₁.2 s).mpr ⟨A, hA, hall kv₁ (List.mem_cons_self _ _)⟩
      · rw [hA]
        simp only
        rw [if_pos (fun p hp => hall p (List.mem_cons_of_mem _ hp))]

/-- A concrete reachable index state used by the witnesses below: one
secret `s1` with attribute map `[("a", "1")]`. -/
def dbExample : AttrDb := create_secret "s1" [("a", "1")] ⟨[], []⟩

theorem dbExample_reachable : Reachable dbExample :=
  Reachable.create "s1" [("a", "1")] Reachable.empty rfl (by decide)

theorem dbExample_inv : Inv dbExample := reachable_inv dbExample_reachable

theorem search_collection_spec_witness :
    Inv dbExample ∧
    assocGet "s1" dbExample.attributes_reverse = some [("a", "1")] ∧
    ("s1" ∈ search_collection [("a", "1")] dbExample ↔
      ([("a", "1")] ≠ ([] : AttrPairs) ∧
        ∀ p ∈ [(("a" : String), ("1" : String))],
          assocGet p.1 [(("a" : String), ("1" : String))] = some p.2)) :=
  ⟨dbExample_inv, rfl,
    search_collection_spec dbExample dbExample_inv "s1" [("a", "1")] rfl
      [("a", "1")]⟩

/-- C2: in every per-collection attribute-database state reachable from
the empty database by `create_secret` (fresh id, `HashMap` attributes),
`set_secret_attrs` and `delete_secret` index transactions, the forward
multimap and the reverse table are mutual inverses. -/
theorem attribute_index_mutual_inverse (db : AttrDb) (h : Reachable db) :
    Inv db :=
  reachable_inv h

theorem attribute_index_mutual_inverse_witness :
    Reachable dbExample ∧ Inv dbExample :=
  ⟨Reachable.create "s1" [("a", "1")] Reachable.empty rfl (by decide),
    attribute_index_mutual_inverse dbExample
      (Reachable.create "s1" [("a", "1")] Reachable.empty rfl (by decide))⟩

/-! ## Session transports (src/dbus_server/secret_transfer.rs)

The AES-128 block cipher and HKDF-SHA256 come from external crates; the
block cipher is abstracted as a pair of functions on 16-byte blocks with
the inverse property stated as a hypothesis, which keyed AES-128
satisfies.  CBC chaining, PKCS#7 padding and the byte bookkeeping are
modelled concretely. -/

/-- Byte-wise XOR of two blocks (truncating to the shorter one, as
`zipWith`). -/
def xorBytes (a b : List Nat) : List Nat := List.zipWith Nat.xor a b

/-- Split a byte string into successive 16-byte chunks (structural fuel
so that the definition evaluates in the kernel). -/
def toBlocksGo : Nat → List Nat → List (List Nat)
  | 0, _ => []
  | fuel + 1, l => if l = [] then [] else l.take 16 :: toBlocksGo fuel (l.drop 16)

/-- Split a byte string into 16-byte AES blocks. -/
def toBlocks (l : List Nat) : List (List Nat) := toBlocksGo l.length l

/-- PKCS#7 padding to the AES block size 16: append `16 - len % 16`
bytes, each holding the pad length. -/
def pkcs7Pad (data : List Nat) : List Nat :=
  data ++ List.replicate (16 - data.length % 16) (16 - data.length % 16)

/-- PKCS#7 unpadding: the last byte gives the pad length, which must be
between 1 and 16 with every padding byte equal to it; anything else —
including empty input, where the default 0 fails the lower bound — is an
unpad error (`none`). -/
def pkcs7Unpad (data : List Nat) : Option (List Nat) :=
  let n := data.getLast?.getD 0
  if 1 ≤ n ∧ n ≤ 16 ∧ n ≤ data.length ∧
      (data.drop (data.length - n)).all fun b => b = n
  then some (data.take (data.length - n))
  else none

/-- CBC-mode encryption over an abstract block cipher `encB`; the first
argument of the recursion is the previous ciphertext block (initially
the IV). -/
def cbcEncBlocks (encB : List Nat → List Nat) : List Nat → List (List Nat) → List (List Nat)
  | _, [] => []
  | prev, b :: rest =>
    encB (xorBytes b prev) :: cbcEncBlocks encB (encB (xorBytes b prev)) rest

/-- CBC-mode decryption over an abstract block cipher `decB`. -/
def cbcDecBlocks (decB : List Nat → List Nat) : List Nat → List (List Nat) → List (List Nat)
  | _, [] => []
  | prev, c :: rest => xorBytes (decB c) prev :: cbcDecBlocks decB c rest

/-- The wire `Secret` struct (src/dbus_server/secret_transfer.rs lines
38-44). -/
structure Secret where
  session : String
  parameters : List Nat
  value : List Nat
  content_type : String
deriving DecidableEq

/-- `PlainTextTransfer::encrypt` (lines 61-68): passthrough with empty
parameters. -/
def plain_encrypt (value : List Nat) (session : String) : Secret :=
  { session := session, parameters := [], value := value,
    content_type := "text/plain" }

/-- `PlainTextTransfer::decrypt` (lines 57-59): passthrough, always
`Ok`. -/
def plain_decrypt (secret : Secret) : Except String (List Nat) :=
  .ok secret.value

/-- Outcome of the DH transport's `decrypt`, including the panic raised
by `GenericArray::from_slice` on a slice whose length is not 16. -/
inductive DecryptResult where
  | ok (value : List Nat)
  | encryptionError (msg : String)
  | panicked
deriving DecidableEq

/-- `DhIetf1024Sha256Aes128CbcPkcs7Transfer::encrypt` (lines 130-145),
parametrised by the keyed AES-128 block encryption `encB` and the random
16-byte IV `OsRng` produced: PKCS#7-pad, CBC-encrypt, send the IV as
`parameters`. -/
def dh_encrypt (encB : List Nat → List Nat) (iv : List Nat)
    (value : List Nat) (session : String) : Secret :=
  { session := session, parameters := iv,
    value := (cbcEncBlocks encB iv (toBlocks (pkcs7Pad value))).flatten,
    content_type := "text/plain" }

/-- `DhIetf1024Sha256Aes128CbcPkcs7Transfer::decrypt` (lines 121-128),
parametrised by the keyed AES-128 block decryption `decB`.
`GenericArray::from_slice(&secret.parameters[..])` panics unless the
parameters are exactly 16 bytes; `decrypt_padded_vec_mut::<Pkcs7>`
returns an unpad error — mapped by the source to
`Error::EncryptionError("AES Unpad Error")` — when the ciphertext length
is not a multiple of 16 or the PKCS#7 padding is malformed. -/
def dh_decrypt (decB : List Nat → List Nat) (secret : Secret) :
    DecryptResult :=
  if secret.parameters.length ≠ 16 then .panicked
  else if secret.value.length % 16 ≠ 0 then .encryptionError "AES Unpad Error"
  else
    match pkcs7Unpad
        ((cbcDecBlocks decB secret.parameters (toBlocks secret.value)).flatten) with
    | some v => .ok v
    | none => .encryptionError "AES Unpad Error"

theorem xorBytes_length (a b : List Nat) :
    (xorBytes a b).length = min a.length b.length := by
  simp [xorBytes]

theorem xorBytes_cancel : ∀ a b : List Nat, a.length = b.length →
    xorBytes (xorBytes a b) b = a := by
  intro a
  induction a with
  | nil => intro b _; rfl
  | cons x xs ih =>
    intro b hb
    cases b with
    | nil => simp at hb
    | cons y ys =>
      simp only [List.length_cons, Nat.succ.injEq] at hb
      simp only [xorBytes, List.zipWith_cons_cons]
      have hx : Nat.xor (Nat.xor x y) y = x := by
        show x ^^^ y ^^^ y = x
        rw [Nat.xor_assoc, Nat.xor_self, Nat.xor_zero]
      rw [hx]
      exact congrArg _ (ih ys hb)

theorem toBlocksGo_flatten : ∀ (fuel : Nat) (l : List Nat),
    l.length ≤ fuel → (toBlocksGo fuel l).flatten = l := by
  intro fuel
  induction fuel with
  | zero =>
    intro l hl
    rw [Nat.le_zero, List.length_eq_zero] at hl
    subst hl
    rfl
  | succ fuel ih =>
    intro l hl
    rw [toBlocksGo]
    split
    · case isTrue h => rw [h]; rfl
    · case isFalse h =>
      rw [List.flatten_cons, ih (l.drop 16) ?_, List.take_append_drop]
      rw [List.length_drop]
      have : 0 < l.length := List.length_pos.mpr h
      omega

theorem flatten_toBlocks (l : List Nat) : (toBlocks l).flatten = l :=
  toBlocksGo_flatten l.length l le_rfl

theorem toBlocksGo_blocklen : ∀ (fuel : Nat) (l : List Nat),
    l.length ≤ fuel → l.length % 16 = 0 →
    ∀ b ∈ toBlocksGo fuel l, b.length = 16 := by
  intro fuel
  induction fuel with
  | zero =>
    intro l hl _ b hb
    rw [Nat.le_zero, List.length_eq_zero] at hl
    subst hl
    simp [toBlocksGo] at hb
  | succ fuel ih =>
    intro l hl hmod b hb
    rw [toBlocksGo] at hb
    split at hb
    · simp at hb
    · case isFalse h =>
      have hpos : 0 < l.length := List.length_pos.mpr h
      have h16 : 16 ≤ l.length := by omega
      rcases List.mem_cons.mp hb with rfl | hb2
      · rw [List.length_take]
        omega
      · refine ih (l.drop 16) ?_ ?_ b hb2 <;> rw [List.length_drop] <;> omega

theorem toBlocks_blocklen (l : List Nat) (hmod : l.length % 16 = 0) :
    ∀ b ∈ toBlocks l, b.length = 16 :=
  toBlocksGo_blocklen l.length l le_rfl hmod

theorem toBlocksGo_flatten_inv : ∀ (bs : List (List Nat)) (fuel : Nat),
    bs.flatten.length ≤ fuel → (∀ b ∈ bs, b.length = 16) →
    toBlocksGo fuel bs.flatten = bs := by
  intro bs
  induction bs with
  | nil =>
    intro fuel _ _
    cases fuel <;> rfl
  | cons b rest ih =>
    intro fuel hfuel hlen
    have hb : b.length = 16 := hlen b (List.mem_cons_self _ _)
    rw [List.flatten_cons] at hfuel ⊢
    have hlenappend : (b ++ rest.flatten).length = 16 + rest.flatten.length := by
      rw [List.length_append, hb]
    cases fuel with
    | zero => omega
    | succ fuel =>
      rw [toBlocksGo]
      rw [if_neg (by intro h; rw [h] at hlenappend; simp at hlenappend; omega)]
      rw [List.take_left' hb, List.drop_left' hb]
      rw [ih fuel (by omega) fun c hc => hlen c (List.mem_cons_of_mem _ hc)]

theorem toBlocks_flatten_inv (bs : List (List Nat))
    (hlen : ∀ b ∈ bs, b.length = 16) : toBlocks bs.flatten = bs :=
  toBlocksGo_flatten_inv bs bs.flatten.length le_rfl hlen

theorem flatten_length_mod (bs : List (List Nat))
    (hlen : ∀ b ∈ bs, b.length = 16) : bs.flatten.length % 16 = 0 := by
  induction bs with
  | nil => rfl
  | cons b rest ih =>
    rw [List.flatten_cons, List.length_append,
      hlen b (List.mem_cons_self _ _)]
    have := ih fun c hc => hlen c (List.mem_cons_of_mem _ hc)
    omega

theorem cbcEncBlocks_blocklen (encB : List Nat → List Nat)
    (hlen : ∀ b : List Nat, b.length = 16 → (encB b).length = 16) :
    ∀ (bs : List (List Nat)) (prev : List Nat), prev.length = 16 →
      (∀ b ∈ bs, b.length = 16) →
      ∀ c ∈ cbcEncBlocks encB prev bs, c.length = 16 := by
  intro bs
  induction bs with
  | nil => intro prev _ _ c hc; simp [cbcEncBlocks] at hc
  | cons b rest ih =>
    intro prev hprev hbs c hc
    rw [cbcEncBlocks] at hc
    have hx : (xorBytes b prev).length = 16 := by
      rw [xorBytes_length, hbs b (List.mem_cons_self _ _), hprev]
      omega
    have henc : (encB (xorBytes b prev)).length = 16 := hlen _ hx
    rcases List.mem_cons.mp hc with rfl | hc2
    · exact henc
    · exact ih (encB (xorBytes b prev)) henc
        (fun b2 hb2 => hbs b2 (List.mem_cons_of_mem _ hb2)) c hc2

theorem cbcDecBlocks_cbcEncBlocks (encB decB : List Nat → List Nat)
    (hlen : ∀ b : List Nat, b.length = 16 → (encB b).length = 16)
    (hdec : ∀ b : List Nat, b.length = 16 → decB (encB b) = b) :
    ∀ (bs : List (List Nat)) (prev : List Nat), prev.length = 16 →
      (∀ b ∈ bs, b.length = 16) →
      cbcDecBlocks decB prev (cbcEncBlocks encB prev bs) = bs := by
  intro bs
  induction bs with
  | nil => intro prev _ _; rfl
  | cons b rest ih =>
    intro prev hprev hbs
    rw [cbcEncBlocks, cbcDecBlocks]
    have hx : (xorBytes b prev).length = 16 := by
      rw [xorBytes_length, hbs b (List.mem_cons_self _ _), hprev]
      omega
    rw [hdec _ hx, xorBytes_cancel b prev (by rw [hbs b (List.mem_cons_self _ _), hprev])]
    rw [ih (encB (xorBytes b prev)) (hlen _ hx)
      fun b2 hb2 => hbs b2 (List.mem_cons_of_mem _ hb2)]

theorem getLast?_replicate_succ (n : Nat) (a : Nat) :
    (List.replicate (n + 1) a).getLast? = some a := by
  induction n with
  | zero => rfl
  | succ n ih =>
    rw [List.replicate_succ, List.replicate_succ] at *
    rwa [List.getLast?_cons_cons]

theorem pkcs7Unpad_pkcs7Pad (v : List Nat) : pkcs7Unpad (pkcs7Pad v) = some v := by
  have hlt : v.length % 16 < 16 := Nat.mod_lt _ (by omega)
  set n := 16 - v.length % 16 with hn
  have hn1 : 1 ≤ n := by omega
  have hn16 : n ≤ 16 := by omega
  obtain ⟨m, hm⟩ : ∃ m, n = m + 1 := ⟨n - 1, by omega⟩
  have hgl : (v ++ List.replicate n n).getLast? = some n := by
    rw [List.getLast?_append, hm, getLast?_replicate_succ]
    rfl
  have hlen2 : (v ++ List.replicate n n).length = v.length + n := by simp
  have hsub : v.length + n - n = v.length := by omega
  simp only [pkcs7Unpad, pkcs7Pad, ← hn]
  rw [hgl]
  simp only [Option.getD_some]
  rw [hlen2, hsub]
  have hall : ((v ++ List.replicate n n).drop v.length).all
      (fun b => decide (b = n)) = true := by
    rw [List.drop_left]
    simp [List.all_eq_true]
  rw [if_pos ⟨hn1, hn16, by omega, hall⟩]
  exact congrArg some (List.take_left v _)

/-- C3: for every byte payload, decrypting with the same session transfer
the `Secret` produced by encrypting it returns exactly the payload — for
the plain transport unconditionally, and for the DH transport for every
16-byte IV and every 16-byte block cipher (such as keyed AES-128) whose
decryption inverts its encryption. -/
theorem transfer_roundtrip (value : List Nat) (session : String)
    (encB decB : List Nat → List Nat) (iv : List Nat)
    (hiv : iv.length = 16)
    (hlen : ∀ b : List Nat, b.length = 16 → (encB b).length = 16)
    (hdec : ∀ b : List Nat, b.length = 16 → decB (encB b) = b) :
    plain_decrypt (plain_encrypt value session) = .ok value ∧
    dh_decrypt decB (dh_encrypt encB iv value session) = .ok value := by
  refine ⟨rfl, ?_⟩
  have hpadmod : (pkcs7Pad value).length % 16 = 0 := by
    rw [pkcs7Pad, List.length_append, List.length_replicate]
    omega
  have hpadblocks := toBlocks_blocklen (pkcs7Pad value) hpadmod
  have hencblocks :=
    cbcEncBlocks_blocklen encB hlen (toBlocks (pkcs7Pad value)) iv hiv hpadblocks
  rw [dh_decrypt, dh_encrypt]
  simp only
  rw [if_neg (by rw [hiv]; omega)]
  rw [if_neg (by rw [flatten_length_mod _ hencblocks]; omega)]
  rw [toBlocks_flatten_inv _ hencblocks]
  rw [cbcDecBlocks_cbcEncBlocks encB decB hlen hdec _ iv hiv hpadblocks]
  rw [flatten_toBlocks, pkcs7Unpad_pkcs7Pad]

theorem transfer_roundtrip_witness :
    (List.replicate 16 0 : List Nat).length = 16 ∧
    (∀ b : List Nat, b.length = 16 → ((fun x => x) b : List Nat).length = 16) ∧
    (∀ b : List Nat, b.length = 16 → (fun x => x) ((fun x => x) b) = b) ∧
    (plain_decrypt (plain_encrypt [104, 105] "/s") = .ok [104, 105] ∧
      dh_decrypt (fun x => x)
        (dh_encrypt (fun x => x) (List.replicate 16 0) [104, 105] "/s") =
        .ok [104, 105]) :=
  ⟨by decide, fun _ hb => hb, fun _ _ => rfl,
    transfer_roundtrip [104, 105] "/s" (fun x => x) (fun x => x)
      (List.replicate 16 0) (by decide) (fun _ hb => hb) (fun _ _ => rfl)⟩

/-- C5: evaluating the DH transport's `decrypt` on malformed input: a
`Secret` whose `parameters` field is not a 16-byte IV makes the code
panic (`GenericArray::from_slice` asserts the length) instead of
returning an encryption error, while a `value` whose length is not a
multiple of the block size does return the encryption error. -/
theorem dh_decrypt_malformed :
    dh_decrypt (fun x => x)
      { session := "/s", parameters := [], value := [],
        content_type := "text/plain" } = .panicked ∧
    dh_decrypt (fun x => x)
      { session := "/s", parameters := List.replicate 16 0, value := [0],
        content_type := "text/plain" } = .encryptionError "AES Unpad Error" ∧
    (decide (DecryptResult.panicked =
      .encryptionError "AES Unpad Error")) = false := by
  refine ⟨rfl, by decide, by decide⟩

/-! ## DH key agreement (src/dbus_server/secret_transfer.rs lines 17-117) -/

/-- num-bigint `BigUint::from_bytes_be`. -/
def from_bytes_be (l : List Nat) : Nat := l.foldl (fun acc b => acc * 256 + b) 0

/-- Big-endian digit expansion (fuel-structural so it evaluates); empty
for zero. -/
def natToBytesBEAux : Nat → Nat → List Nat
  | 0, _ => []
  | fuel + 1, n => if n = 0 then [] else natToBytesBEAux fuel (n / 256) ++ [n % 256]

/-- num-bigint `BigUint::to_bytes_be`: minimal big-endian encoding,
`[0]` for zero. -/
def to_bytes_be (n : Nat) : List Nat :=
  if n = 0 then [0] else natToBytesBEAux n n

/-- The Second Oakley Prime (RFC 2409 section 6.2), from the same
big-endian byte table as the source (lines 21-33). -/
def DH_SECOND_OAKLEY_PRIME : Nat :=
  from_bytes_be [
    0xFF, 0xFF, 0xFF, 0xFF, 0xFF, 0xFF, 0xFF, 0xFF, 0xC9, 0x0F, 0xDA, 0xA2, 0x21, 0x68, 0xC2,
    0x34, 0xC4, 0xC6, 0x62, 0x8B, 0x80, 0xDC, 0x1C, 0xD1, 0x29, 0x02, 0x4E, 0x08, 0x8A, 0x67,
    0xCC, 0x74, 0x02, 0x0B, 0xBE, 0xA6, 0x3B, 0x13, 0x9B, 0x22, 0x51, 0x4A, 0x08, 0x79, 0x8E,
    0x34, 0x04, 0xDD, 0xEF, 0x95, 0x19, 0xB3, 0xCD, 0x3A, 0x43, 0x1B, 0x30, 0x2B, 0x0A, 0x6D,
    0xF2, 0x5F, 0x14, 0x37, 0x4F, 0xE1, 0x35, 0x6D, 0x6D, 0x51, 0xC2, 0x45, 0xE4, 0x85, 0xB5,
    0x76, 0x62, 0x5E, 0x7E, 0xC6, 0xF4, 0x4C, 0x42, 0xE9, 0xA6, 0x37, 0xED, 0x6B, 0x0B, 0xFF,
    0x5C, 0xB6, 0xF4, 0x06, 0xB7, 0xED, 0xEE, 0x38, 0x6B, 0xFB, 0x5A, 0x89, 0x9F, 0xA5, 0xAE,
    0x9F, 0x24, 0x11, 0x7C, 0x4B, 0x1F, 0xE6, 0x49, 0x28, 0x66, 0x51, 0xEC, 0xE6, 0x53, 0x81,
    0xFF, 0xFF, 0xFF, 0xFF, 0xFF, 0xFF, 0xFF, 0xFF]

/-- The DH shared secret value `Z`:
`client_pub_key.modpow(&priv_key, dh_prime)` (line 92). -/
def dhZ (priv : Nat) (client_pub_key : List Nat) : Nat :=
  from_bytes_be client_pub_key ^ priv % DH_SECOND_OAKLEY_PRIME

/-- The HKDF-SHA256 input keying material as computed by
`DhIetf1024Sha256Aes128CbcPkcs7Transfer::new` (lines 82-109): the
big-endian bytes of `Z` with `vec![0; 128 - len]` appended — padded on
the right. -/
def dh_shared_secret (priv : Nat) (client_pub_key : List Nat) : List Nat :=
  to_bytes_be (dhZ priv client_pub_key) ++
    List.replicate (128 - (to_bytes_be (dhZ priv client_pub_key)).length) 0

/-- `get_pub_key` (lines 111-117): minimal big-endian bytes of
`2 ^ x mod p`, with no padding. -/
def get_pub_key (priv : Nat) : List Nat :=
  to_bytes_be (2 ^ priv % DH_SECOND_OAKLEY_PRIME)

/-- Spec-side encoding for comparison: big-endian, left-padded with
zeros to 128 bytes, as the spec claims for both the server public value
and the HKDF input. -/
def leftPad128 (l : List Nat) : List Nat := List.replicate (128 - l.length) 0 ++ l

/-- Spec-side server public value: left-padded to 128 bytes. -/
def spec_pub_key (priv : Nat) : List Nat := leftPad128 (get_pub_key priv)

/-- Spec-side HKDF input: `Z` big-endian, left-padded to 128 bytes. -/
def spec_shared_secret (priv : Nat) (client_pub_key : List Nat) : List Nat :=
  leftPad128 (to_bytes_be (dhZ priv client_pub_key))

/-- C4 counterexample: with private exponent 1 and client public value
`[2]`, the server public value is the single byte `[2]` — not left-padded
to 128 bytes — and the HKDF input is `[2]` followed by 127 zeros
(right-padded), not 127 zeros followed by `[2]` (left-padded). -/
theorem dh_padding_counterexample :
    get_pub_key 1 = [2] ∧
    spec_pub_key 1 = List.replicate 127 0 ++ [2] ∧
    decide (get_pub_key 1 = spec_pub_key 1) = false ∧
    dh_shared_secret 1 [2] = 2 :: List.replicate 127 0 ∧
    spec_shared_secret 1 [2] = List.replicate 127 0 ++ [2] ∧
    decide (dh_shared_secret 1 [2] = spec_shared_secret 1 [2]) = false := by
  exact ⟨rfl, rfl, by decide, rfl, rfl, by decide⟩

theorem natToBytesBEAux_length_le :
    ∀ (fuel n k : Nat), n < 256 ^ k → (natToBytesBEAux fuel n).length ≤ k := by
  intro fuel
  induction fuel with
  | zero => intro n k _; simp [natToBytesBEAux]
  | succ fuel ih =>
    intro n k hnk
    rw [natToBytesBEAux]
    split
    · simp
    · case isFalse hn0 =>
      cases k with
      | zero =>
        rw [Nat.pow_zero] at hnk
        omega
      | succ k =>
        rw [List.length_append]
        simp only [List.length_cons, List.length_nil]
        have hdiv : n / 256 < 256 ^ k := by
          rw [Nat.div_lt_iff_lt_mul (by omega)]
          calc n < 256 ^ (k + 1) := hnk
            _ = 256 ^ k * 256 := by rw [Nat.pow_succ]
        have := ih (n / 256) k hdiv
        omega

theorem to_bytes_be_length_le {n k : Nat} (hk : 1 ≤ k) (h : n < 256 ^ k) :
    (to_bytes_be n).length ≤ k := by
  rw [to_bytes_be]
  split
  · simpa using hk
  · exact natToBytesBEAux_length_le n n k h

/-- C4 (amended): the server public value is the minimal big-endian
encoding of `2 ^ x mod p`, with no padding; the AES-128 key is
HKDF-SHA256 (no salt, empty info, 16-byte output in the source call)
applied not to a left-padded encoding but to the big-endian bytes of
`Z = Y ^ x mod p` padded on the right with zeros to exactly 128 bytes. -/
theorem dh_key_material_amended (priv : Nat) (client_pub_key : List Nat) :
    get_pub_key priv = to_bytes_be (2 ^ priv % DH_SECOND_OAKLEY_PRIME) ∧
    (dh_shared_secret priv client_pub_key).length = 128 ∧
    dh_shared_secret priv client_pub_key =
      to_bytes_be (dhZ priv client_pub_key) ++
        List.replicate (128 - (to_bytes_be (dhZ priv client_pub_key)).length) 0 := by
  refine ⟨rfl, ?_, rfl⟩
  have hp : 0 < DH_SECOND_OAKLEY_PRIME := by decide
  have hz : dhZ priv client_pub_key < DH_SECOND_OAKLEY_PRIME :=
    Nat.mod_lt _ hp
  have hlt : dhZ priv client_pub_key < 256 ^ 128 :=
    lt_of_lt_of_le hz (le_of_lt (by decide))
  have hle := to_bytes_be_length_le (by omega) hlt
  rw [dh_shared_secret, List.length_append, List.length_replicate]
  omega

/-! ## Aliases: ReadAlias (src/secret_store.rs, src/dbus_server/service.rs) -/

/-- `SecretStore::get_alias` (src/secret_store.rs lines 236-252): point
lookup in the global `aliases` table; a missing entry (or a missing
table) becomes `io::ErrorKind::NotFound` through `into_not_found()`. -/
def get_alias (aliasName : String) (aliases : List (String × String)) :
    Except StoreErr String :=
  match assocGet aliasName aliases with
  | some target => .ok target
  | none => .error .notFound

/-- zbus object-path element validity: non-empty and over
`[A-Za-z0-9_]` (which covers every id `create_collection` generates). -/
def validPathElem (s : String) : Bool :=
  s.length != 0 && s.data.all fun c => isAsciiAlphanumeric c || c = '_'

/-- `collection_path` (src/dbus_server/utils.rs lines 7-12):
`/org/freedesktop/secrets/collection/{id}` when that is a valid object
path, `None` otherwise. -/
def collection_path (id : String) : Option String :=
  if validPathElem id then some ("/org/freedesktop/secrets/collection/" ++ id)
  else none

/-- `Service::read_alias` (src/dbus_server/service.rs lines 337-345):
slugify the name, call `get_alias` — the `?` operator propagates its
not-found error — and only then fall back to `/` when the stored target
does not form a valid object path. -/
def read_alias (name : String) (aliases : List (String × String)) :
    Except StoreErr String :=
  match get_alias (slugify name) aliases with
  | .error e => .error e
  | .ok target =>
    match collection_path target with
    | some p => .ok p
    | none => .ok "/"

/-- C6: `ReadAlias` on an alias that has no entry in the aliases table
does not return `/` — the `?` on `get_alias` raises the not-found error
(wire name `org.freedesktop.Secret.Error.NoSuchObject`) before the `/`
fallback is reached; evaluated here on the empty aliases table. -/
theorem read_alias_unknown_raises :
    read_alias "missing" [] = .error .notFound ∧
    (read_alias "missing" ([] : List (String × String))).isOk = false := by
  exact ⟨rfl, rfl⟩

/-! ## Service::set_alias and the alias object mirror
(src/dbus_server/service.rs lines 347-407) -/

/-- The D-Bus object server, as two path-indexed interface tables:
`Collection` interfaces (value: the collection id the object holds) and
`Item` interfaces (value: collection id and secret id). -/
structure ObjServer where
  collections : List (String × String)
  items : List (String × (String × String))

/-- `alias_path` (src/dbus_server/utils.rs lines 25-27). -/
def alias_path (aliasName : String) : String :=
  "/org/freedesktop/secrets/aliases/" ++ aliasName

/-- `secret_alias_path` (src/dbus_server/utils.rs lines 19-24). -/
def secret_alias_path (aliasName secret : String) : String :=
  "/org/freedesktop/secrets/aliases/" ++ aliasName ++ "/" ++ secret

/-- `collection_path` as a plain string (its argument here is always a
valid element). -/
def collection_path_str (id : String) : String :=
  "/org/freedesktop/secrets/collection/" ++ id

/-- `secret_path` (src/dbus_server/utils.rs lines 13-18) as a plain
string. -/
def secret_path_str (id secret : String) : String :=
  "/org/freedesktop/secrets/collection/" ++ id ++ "/" ++ secret

/-- The `collection.strip_prefix("/org/freedesktop/secrets/collection/")`
call of `set_alias` (line 386), over the character lists. -/
def stripCollectionPath (path : String) : Option String :=
  let pre := "/org/freedesktop/secrets/collection/".data
  if path.data.take pre.length = pre then some ⟨path.data.drop pre.length⟩
  else none

/-- `Service::set_alias` (src/dbus_server/service.rs lines 347-407),
parametrised by `secretsOf`, the on-disk `list_secrets` per collection.
Steps, in source order: remove the `Collection` object at the alias
path; if the alias currently resolves, remove the `Item` object at every
alias secret path of the old target; if the new path is `/`, persist the
alias removal; otherwise look up the `Collection` interface at the given
path (`?` turns a miss into an error), install it at the alias path,
strip the path prefix to get the id and, for each of its secrets, look
the `Item` up at the alias secret path itself — re-installing it only
when something is already there — then persist the alias. -/
def service_set_alias (secretsOf : String → List String)
    (name : String) (collection : String) (os : ObjServer)
    (aliases : List (String × String)) :
    Except StoreErr (ObjServer × List (String × String)) :=
  let aliasName := slugify name
  let apath := alias_path aliasName
  let os1 : ObjServer :=
    { os with collections := os.collections.filter fun p => p.1 ≠ apath }
  let os2 : ObjServer :=
    match get_alias aliasName aliases with
    | .ok old_target =>
      { os1 with items := os1.items.filter fun p =>
          !((secretsOf old_target).any fun s =>
            decide (p.1 = secret_alias_path aliasName s)) }
    | .error _ => os1
  if collection = "/" then
    .ok (os2, tableRemoveKey aliasName aliases)
  else
    match assocGet collection os2.collections with
    | none => .error .notFound
    | some target_id =>
      let os3 : ObjServer :=
        { os2 with collections := (apath, target_id) :: os2.collections }
      match stripCollectionPath collection with
      | some id =>
        let os4 : ObjServer :=
          { os3 with items := (secretsOf id).foldl (fun items s =>
              match assocGet (secret_alias_path aliasName s) items with
              | some it => (secret_alias_path aliasName s, it) :: items
              | none => items) os3.items }
        .ok (os4, tableSet aliasName id aliases)
      | none => .ok (os3, tableRemoveKey aliasName aliases)

/-- Secrets on disk in the C7 scenario: collection `c1` holds `s1`,
collection `c2` holds `s2`. -/
def exampleSecretsOf : String → List String := fun id =>
  if id = "c1" then ["s1"] else if id = "c2" then ["s2"] else []

/-- Object graph of the C7 scenario: both collections and their secrets
at canonical paths, alias `default` currently mirroring `c1`. -/
def exampleOs : ObjServer where
  collections := [
    (collection_path_str "c1", "c1"),
    (collection_path_str "c2", "c2"),
    (alias_path "default", "c1")]
  items := [
    (secret_path_str "c1" "s1", ("c1", "s1")),
    (secret_path_str "c2" "s2", ("c2", "s2")),
    (secret_alias_path "default" "s1", ("c1", "s1"))]

/-- Persisted aliases of the C7 scenario. -/
def exampleAliases : List (String × String) := [("default", "c1")]

/-- The state `service_set_alias` produces in the C7 scenario. -/
def exampleSetAliasResult : ObjServer × List (String × String) :=
  match service_set_alias exampleSecretsOf "default"
      (collection_path_str "c2") exampleOs exampleAliases with
  | .ok r => r
  | .error _ => (⟨[], []⟩, [])

/-- C7: `SetAlias("default", /org/freedesktop/secrets/collection/c2)` on
a graph where `default` mirrors collection `c1` (secret `s1`) and `c2`
holds secret `s2`: the call succeeds, installs the alias collection
object and persists the alias, but no alias secret object appears at
`/org/freedesktop/secrets/aliases/default/s2` — the source looks the
`Item` up at the alias path it is about to populate (which this very
call just cleared) rather than at the canonical secret path, so the
mirror loop installs nothing. -/
theorem set_alias_mirror_not_installed :
    (service_set_alias exampleSecretsOf "default"
        (collection_path_str "c2") exampleOs exampleAliases).isOk = true ∧
    assocGet (alias_path "default") exampleSetAliasResult.1.collections =
      some "c2" ∧
    assocGet (secret_alias_path "default" "s1")
      exampleSetAliasResult.1.items = none ∧
    assocGet (secret_alias_path "default" "s2")
      exampleSetAliasResult.1.items = none ∧
    assocGet "default" exampleSetAliasResult.2 = some "c2" := by
  refine ⟨?_, ?_, ?_, ?_, ?_⟩ <;> rfl

/-! ## Deleting a secret twice (src/secret_store.rs lines 530-576,
src/pass.rs lines 200-207) -/

/-- State of one collection as `delete_secret` sees it: the secret ids
with an on-disk `.gpg` file, and the attribute database. -/
structure CollState where
  files : List String
  db : AttrDb

/-- `SecretStore::delete_secret` composed with
`PasswordStore::delete_password`: the file removal treats a missing file
as success (src/pass.rs line 204); the index transaction then aborts
with not-found when the reverse entry is absent — after the file
deletion has already happened. -/
def store_delete_secret (secret_id : String) (st : CollState) :
    Except StoreErr Unit × CollState :=
  let files2 := st.files.filter fun f => f ≠ secret_id
  match delete_secret_tx secret_id st.db with
  | .ok db2 => (.ok (), { files := files2, db := db2 })
  | .error e => (.error e, { files := files2, db := st.db })

/-- C8 counterexample: deleting the same secret twice is not success
twice — with secret `s1` present (file and index entry), the first
`delete_secret` succeeds and the second aborts with the not-found error
that `into_not_found()` raises on the missing reverse-index entry, even
though the file half treats the missing `.gpg` file as success. -/
theorem delete_secret_twice_counterexample :
    (store_delete_secret "s1" ⟨["s1"], dbExample⟩).1 = .ok () ∧
    (store_delete_secret "s1"
        (store_delete_secret "s1" ⟨["s1"], dbExample⟩).2).1 =
      .error .notFound :=
  ⟨rfl, rfl⟩

/-- C8 (amended): for a secret whose reverse-index entry is present, the
first `delete_secret` succeeds; an immediately repeated `delete_secret`
fails with the not-found error from the index transaction — only the
file half (`delete_password`) is idempotent. -/
theorem delete_secret_twice_amended (st : CollState) (secret_id : String)
    (A : AttrPairs)
    (h : assocGet secret_id st.db.attributes_reverse = some A) :
    (store_delete_secret secret_id st).1 = .ok () ∧
    (store_delete_secret secret_id
        (store_delete_secret secret_id st).2).1 = .error .notFound := by
  have h1 : delete_secret_tx secret_id st.db =
      .ok { attributes :=
              A.foldl (fun es kv => multimapRemove kv secret_id es)
                st.db.attributes
            attributes_reverse :=
              tableRemoveKey secret_id st.db.attributes_reverse } := by
    rw [delete_secret_tx, h]
  constructor
  · simp only [store_delete_secret, h1]
  · simp only [store_delete_secret, h1]
    rw [delete_secret_tx, assocGet_tableRemoveKey_self]

theorem delete_secret_twice_amended_witness :
    assocGet "s1" (CollState.mk ["s1"] dbExample).db.attributes_reverse =
      some [("a", "1")] ∧
    ((store_delete_secret "s1" ⟨["s1"], dbExample⟩).1 = .ok () ∧
      (store_delete_secret "s1"
          (store_delete_secret "s1" ⟨["s1"], dbExample⟩).2).1 =
        .error .notFound) :=
  ⟨rfl, delete_secret_twice_amended ⟨["s1"], dbExample⟩ "s1" [("a", "1")] rfl⟩

/-! ## RedbHashMap serialization (src/secret_store/redb_imps.rs)

The variable-length integer codec whose markers are 254 (u16) and 255
(u32) and whose encoder covers values up to `u32::MAX`, as in
src/secret_store/redb_imps.rs lines 12-55.  (The draft in
src/redb_imps.rs uses markers 253/254/255 and its `from_bytes` ends in
`todo!()`.)  Streams are byte lists; a failed `read_exact` or an
out-of-range slice index is `none`. -/

/-- `decode_int` (src/secret_store/redb_imps.rs lines 12-28): one marker
byte; 255 heads a 4-byte little-endian u32, 254 a 2-byte little-endian
u16, anything else is the value itself.  Returns the value and the rest
of the stream. -/
def decode_int : List Nat → Option (Nat × List Nat)
  | [] => none
  | b :: rest =>
    if b = 255 then
      match rest with
      | b0 :: b1 :: b2 :: b3 :: r =>
        some (b0 + 256 * b1 + 65536 * b2 + 16777216 * b3, r)
      | _ => none
    else if b = 254 then
      match rest with
      | b0 :: b1 :: r => some (b0 + 256 * b1, r)
      | _ => none
    else some (b, rest)

/-- `encode_int` (src/secret_store/redb_imps.rs lines 44-55): values
below 253 as a single byte, up to `u16::MAX` as marker 254 plus two
little-endian bytes, up to `u32::MAX` as marker 255 plus four
little-endian bytes; anything larger writes nothing. -/
def encode_int (n : Nat) : List Nat :=
  if n < 253 then [n]
  else if n ≤ 65535 then [254, n % 256, n / 256 % 256]
  else if n ≤ 4294967295 then
    [255, n % 256, n / 256 % 256, n / 65536 % 256, n / 16777216 % 256]
  else []

/-- The variable-length integer codec is inverse for every
`n ≤ u32::MAX`, on any stream continuation. -/
theorem decode_encode_int (n : Nat) (rest : List Nat)
    (h : n ≤ 4294967295) :
    decode_int (encode_int n ++ rest) = some (n, rest) := by
  rw [encode_int]
  by_cases h1 : n < 253
  · rw [if_pos h1]
    simp only [List.cons_append, List.nil_append, decode_int]
    rw [if_neg (by omega), if_neg (by omega)]
  · rw [if_neg h1]
    by_cases h2 : n ≤ 65535
    · rw [if_pos h2]
      simp only [List.cons_append, List.nil_append, decode_int]
      rw [if_neg (by omega)]
      simp only [if_true]
      have hsum : n % 256 + 256 * (n / 256 % 256) = n := by omega
      rw [hsum]
    · rw [if_neg h2, if_pos h]
      simp only [List.cons_append, List.nil_append, decode_int,
        eq_self_iff_true, if_true]
      have hsum : n % 256 + 256 * (n / 256 % 256) + 65536 * (n / 65536 % 256) +
          16777216 * (n / 16777216 % 256) = n := by omega
      rw [hsum]

/-- One serialized entry of `RedbHashMap::as_bytes` at the variable-width
instantiation the store uses (`RedbHashMap<&str, &str>`, where
`fixed_width()` is `None` for both sides): length-prefixed key bytes,
then length-prefixed value bytes. -/
def encodeEntry (e : List Nat × List Nat) : List Nat :=
  encode_int e.1.length ++ e.1 ++ encode_int e.2.length ++ e.2

/-- `RedbHashMap::as_bytes` (src/secret_store/redb_imps.rs lines
126-155): the entry count, then each entry in iteration order. -/
def hashmap_as_bytes (entries : List (List Nat × List Nat)) : List Nat :=
  encode_int entries.length ++ (entries.map encodeEntry).flatten

/-- Read `len` bytes from the stream — the `&data[p..p + len]` slice of
`from_bytes`; an out-of-range index (a panic in Rust) is `none`. -/
def readBytes (n : Nat) (l : List Nat) : Option (List Nat × List Nat) :=
  if n ≤ l.length then some (l.take n, l.drop n) else none

/-- The entry loop of `RedbHashMap::from_bytes` (src/secret_store/
redb_imps.rs lines 108-121): for each of `len` entries read key length,
key bytes, value length, value bytes. -/
def readEntries :
    Nat → List Nat → Option (List (List Nat × List Nat) × List Nat)
  | 0, l => some ([], l)
  | count + 1, l =>
    match decode_int l with
    | none => none
    | some (klen, l1) =>
      match readBytes klen l1 with
      | none => none
      | some (k, l2) =>
        match decode_int l2 with
        | none => none
        | some (vlen, l3) =>
          match readBytes vlen l3 with
          | none => none
          | some (v, l4) =>
            match readEntries count l4 with
            | none => none
            | some (es, l5) => some ((k, v) :: es, l5)

/-- `RedbHashMap::from_bytes` (src/secret_store/redb_imps.rs lines
100-124): decode the count, then that many entries; trailing bytes are
ignored as in the source. -/
def hashmap_from_bytes (data : List Nat) :
    Option (List (List Nat × List Nat)) :=
  match decode_int data with
  | none => none
  | some (len, l1) =>
    match readEntries len l1 with
    | none => none
    | some (es, _) => some es

theorem readBytes_append (l r : List Nat) :
    readBytes l.length (l ++ r) = some (l, r) := by
  rw [readBytes, if_pos (by simp), List.take_left, List.drop_left]

theorem readEntries_append (entries : List (List Nat × List Nat)) :
    ∀ rest : List Nat,
      (∀ e ∈ entries, e.1.length ≤ 4294967295 ∧ e.2.length ≤ 4294967295) →
      readEntries entries.length ((entries.map encodeEntry).flatten ++ rest) =
        some (entries, rest) := by
  induction entries with
  | nil => intro rest _; rfl
  | cons e es ih =>
    intro rest hwf
    obtain ⟨hk, hv⟩ := hwf e (List.mem_cons_self _ _)
    have hrest := fun e2 he2 => hwf e2 (List.mem_cons_of_mem _ he2)
    rw [List.map_cons, List.flatten_cons, List.length_cons]
    have hshape : (encodeEntry e ++ (es.map encodeEntry).flatten) ++ rest =
        encode_int e.1.length ++ (e.1 ++ (encode_int e.2.length ++ (e.2 ++
          ((es.map encodeEntry).flatten ++ rest)))) := by
      simp [encodeEntry, List.append_assoc]
    rw [hshape, readEntries]
    rw [decode_encode_int _ _ hk]
    simp only
    rw [readBytes_append]
    simp only
    rw [decode_encode_int _ _ hv]
    simp only
    rw [readBytes_append]
    simp only
    rw [ih rest hrest]

/-- C10: serializing a hash map (its entries listed in iteration order,
each key and value already serialized, every byte length at most
`u32::MAX`) and deserializing returns exactly the same entries; it rests
on the variable-length integer codec being inverse for every
`n ≤ u32::MAX` (`decode_encode_int`). -/
theorem redb_hashmap_roundtrip (entries : List (List Nat × List Nat))
    (hcount : entries.length ≤ 4294967295)
    (hwf : ∀ e ∈ entries,
      e.1.length ≤ 4294967295 ∧ e.2.length ≤ 4294967295) :
    hashmap_from_bytes (hashmap_as_bytes entries) = some entries := by
  have h1 := readEntries_append entries [] hwf
  rw [List.append_nil] at h1
  rw [hashmap_as_bytes, hashmap_from_bytes, decode_encode_int _ _ hcount]
  simp only [h1]

theorem redb_hashmap_roundtrip_witness :
    ([([104, 105], [53])] : List (List Nat × List Nat)).length ≤
      4294967295 ∧
    (∀ e ∈ ([([104, 105], [53])] : List (List Nat × List Nat)),
      e.1.length ≤ 4294967295 ∧ e.2.length ≤ 4294967295) ∧
    hashmap_from_bytes (hashmap_as_bytes [([104, 105], [53])]) =
      some [([104, 105], [53])] :=
  ⟨by decide, by decide,
    redb_hashmap_roundtrip [([104, 105], [53])] (by decide) (by decide)⟩

end PassSecretService
